import Mathlib

/-!
# Verification of the book-catalog scraping pipeline

Shallow embedding of `src/BookScrapperProject.py`: the scrape → normalize →
dedup → persist pipeline (classes `BookScraper`, `BookDataAnalyzer`,
`BookDatabase`).  Pure fragments of the Python code become Lean functions;
the pandas dataframe becomes a list of rows; the SQLite store becomes an
explicit record holding the rows and the AUTOINCREMENT counter; code that can
raise becomes `Option`-valued.  Prices are modelled as rationals, ratings as
natural numbers; a pandas `NaN` cell is modelled as `none`.
-/

/-! ## Data model -/

/-- One raw listing dict as appended to `self.books` by
`BookScraper.scrape_books_from_page` (lines 66-72): title, raw price string,
stripped availability text, the rating class token, and the qualified url. -/
structure RawBook where
  title : String
  price : String
  availability : String
  rating : String
  url : String
deriving DecidableEq

/-- One row of the analyzer dataframe after `BookDataAnalyzer._preprocess_data`
(lines 114-129): the raw columns plus the derived `price_numeric` and
`rating_numeric` columns.  `rating_numeric` is `Option` because `Series.map`
with a dict leaves `NaN` for a token missing from the dict. -/
structure ProcessedBook where
  title : String
  price : String
  availability : String
  rating : String
  url : String
  price_numeric : ℚ
  rating_numeric : Option ℕ
deriving DecidableEq

/-! ## String helpers

Python string primitives used by the source, re-implemented on `List Char`
so that every definition is executable and kernel-reducible. -/

/-- `pat` is an initial segment of `l` (character-exact). -/
def startsWith : List Char → List Char → Bool
  | [], _ => true
  | _ :: _, [] => false
  | p :: ps, c :: cs => p == c && startsWith ps cs

/-- Worker for `removeAll`, structurally recursive on a fuel bound so that it
reduces inside the kernel.  Every step consumes at least one character, so
`fuel = l.length` is always enough. -/
def removeAllAux (pat : List Char) : ℕ → List Char → List Char
  | _, [] => []
  | 0, l => l
  | fuel + 1, c :: cs =>
    if startsWith pat (c :: cs) ∧ pat ≠ [] then
      removeAllAux pat fuel (List.drop (pat.length - 1) cs)
    else
      c :: removeAllAux pat fuel cs

/-- Python `s.replace(pat, '')`: delete every leftmost non-overlapping
occurrence of `pat` from the character list. -/
def removeAll (pat : List Char) (l : List Char) : List Char :=
  removeAllAux pat l.length l

/-- `pat` occurs as a contiguous substring of `l` (Python `pat in s`). -/
def hasSub (pat : List Char) : List Char → Bool
  | [] => pat.isEmpty
  | c :: cs => startsWith pat (c :: cs) || hasSub pat cs

/-- Python `s.strip()`: drop leading and trailing whitespace. -/
def pyStrip (s : String) : String :=
  String.mk (((s.data.dropWhile Char.isWhitespace).reverse.dropWhile
    Char.isWhitespace).reverse)

/-! ## Normalizer: price parsing and rating mapping -/

/-- A decimal digit character. -/
def isDigitCh (c : Char) : Bool := decide ('0' ≤ c) && decide (c ≤ '9')

/-- Value of a run of decimal digits (most significant first). -/
def digitsVal (l : List Char) : ℕ :=
  l.foldl (fun a c => a * 10 + (c.toNat - 48)) 0

/-- All characters are decimal digits. -/
def allDigits (l : List Char) : Bool := l.all isDigitCh

/-- Python `float(s)` on an unsigned decimal literal: digits with at most one
decimal point and at least one digit (`"51.77"`, `"51."`, `".5"`, `"51"`).
Exponent, `inf`/`nan` and surrounding-whitespace forms, which the pipeline
never produces, are out of the modelled fragment and map to `none`. -/
def parseUnsigned (l : List Char) : Option ℚ :=
  let ip := l.takeWhile (· ≠ '.')
  match l.dropWhile (· ≠ '.') with
  | [] => if ip ≠ [] ∧ allDigits ip then some ((digitsVal ip : ℚ)) else none
  | _ :: frac =>
    if (ip ≠ [] ∨ frac ≠ []) ∧ allDigits ip ∧ allDigits frac then
      some (mkRat (digitsVal ip * 10 ^ frac.length + digitsVal frac)
        (10 ^ frac.length))
    else none

/-- Python `float(s)` with an optional sign. -/
def parseFloat (s : String) : Option ℚ :=
  match s.data with
  | '-' :: rest => (parseUnsigned rest).map (fun q => -q)
  | '+' :: rest => parseUnsigned rest
  | l => parseUnsigned l

/-- Line 117, one cell:
`df['price'].str.replace('Â£','',regex=False).str.replace('£','',regex=False)`
— first delete every occurrence of the mis-encoded prefix `"Â£"`, then every
occurrence of the bare glyph `"£"`. -/
def cleanPriceStr (s : String) : String :=
  String.mk (removeAll ['£'] (removeAll ['Â', '£'] s.data))

/-- Line 117, one cell, the `.astype(float)` step on top of the stripping:
the numeric price of one raw price string, `none` when `float()` would raise. -/
def price_numeric_of (s : String) : Option ℚ := parseFloat (cleanPriceStr s)

/-- Lines 120-128: the `rating_map` dict; `Series.map` yields `NaN` (`none`)
for any token not among the five case-sensitive ordinal words. -/
def rating_map (s : String) : Option ℕ :=
  if s = "One" then some 1
  else if s = "Two" then some 2
  else if s = "Three" then some 3
  else if s = "Four" then some 4
  else if s = "Five" then some 5
  else none

/-- `BookDataAnalyzer._preprocess_data` (lines 114-129) over the whole batch.
`astype(float)` is a whole-column cast: it raises `ValueError` as soon as any
single cell fails to parse, so the result is `none` (no row of the batch gets
normalized) whenever at least one price is unparseable.  The rating `map`
never raises and keeps every row, leaving `none` in `rating_numeric` for an
unrecognized token. -/
def preprocess_data : List RawBook → Option (List ProcessedBook)
  | [] => some []
  | r :: rs =>
    match price_numeric_of r.price with
    | none => none
    | some p =>
      match preprocess_data rs with
      | none => none
      | some out =>
        some ({ title := r.title, price := r.price,
                availability := r.availability, rating := r.rating,
                url := r.url, price_numeric := p,
                rating_numeric := rating_map r.rating } :: out)

/-! ## Concrete rows used by counterexamples and witnesses -/

/-- A well-formed raw listing. -/
def rawA : RawBook := ⟨"A", "£10.00", "In stock", "Five", "u1"⟩

/-- A raw listing whose rating token is not one of the five ordinal words. -/
def rawBadRating : RawBook := ⟨"B", "£8.00", "In stock", "Zero", "u2"⟩

/-- A raw listing whose price string does not parse as a decimal. -/
def rawBadPrice : RawBook := ⟨"C", "price unknown", "In stock", "Three", "u3"⟩

/-! ## Analyzer: best-value query -/

/-- Line 154: `df['rating_numeric'] >= min_rating` on one cell.  A `NaN`
rating (unrecognized token) compares `False` against every threshold. -/
def ratingGe (r : Option ℕ) (m : ℤ) : Bool :=
  match r with
  | none => false
  | some k => decide (m ≤ (k : ℤ))

/-- Insert `a` into `l` keeping `l`'s relative order: `a` goes in front of the
first element `b` with `le a b`. -/
def insLe (le : α → α → Bool) (a : α) : List α → List α
  | [] => [a]
  | b :: bs => if le a b then a :: b :: bs else b :: insLe le a bs

/-- Insertion sort with comparison `le`; stable (ties keep input order)
because each element is inserted in front of later equal elements only when
strictly required by `le`. -/
def sortLe (le : α → α → Bool) : List α → List α
  | [] => []
  | a :: as => insLe le a (sortLe le as)

/-- Ascending comparison on the `price_numeric` column. -/
def priceLe (b c : ProcessedBook) : Bool :=
  decide (b.price_numeric ≤ c.price_numeric)

/-- `BookDataAnalyzer.get_best_value_book` (lines 148-157): on an empty
dataframe return an empty frame; otherwise filter to
`rating_numeric >= min_rating`, sort ascending on `price_numeric`
(`sort_values`), and take the first `n` rows (`head(n)`).  Caveat:
`sort_values` uses numpy's default `kind='quicksort'`, which does NOT
specify the relative order of equal keys (only `mergesort`/`stable` are
stable).  To keep the embedding executable the sort is instantiated here as
a stable ascending insertion sort; the placement of equal-price rows is
therefore a choice of this model, not a guarantee of the code, and
properties that depend on the tie order are properties of the
instantiation only. -/
def get_best_value_book (df : List ProcessedBook) (min_rating : ℤ) (n : ℕ) :
    List ProcessedBook :=
  if df = [] then []
  else (sortLe priceLe
    (df.filter (fun b => ratingGe b.rating_numeric min_rating))).take n

/-- Lexicographic comparison on (price, original position): strictly cheaper
first, equal prices ordered by position.  Total and antisymmetric on rows
carrying distinct positions, so the sorted order is unique. -/
def lexLe (p q : ℕ × ProcessedBook) : Bool :=
  decide (p.2.price_numeric < q.2.price_numeric) ||
    (decide (p.2.price_numeric = q.2.price_numeric) && decide (p.1 ≤ q.1))

/-- Pair every element with its position, starting at `k`. -/
def withIdx (k : ℕ) : List α → List (ℕ × α)
  | [] => []
  | a :: as => (k, a) :: withIdx (k + 1) as

/-- Modelled from the spec (§4.5 `best_value`), for comparison with
`get_best_value_book`: filter to `rating ≥ min_rating`, order by ascending
price with ties broken by original (insertion) position — i.e. sort by the
tie-free lexicographic key (price, position) — and return the first `n`. -/
def bestValueSpec (df : List ProcessedBook) (min_rating : ℤ) (n : ℕ) :
    List ProcessedBook :=
  (((sortLe lexLe ((withIdx 0 df).filter
      (fun p => ratingGe p.2.rating_numeric min_rating)))).map Prod.snd).take n

/-! ## Analyzer: summary statistics -/

/-- The dict returned by `get_summary_stats`; the numeric fields are `Option`
because the empty-dataframe dict carries only `total_books`, and because a
pandas mean over an all-`NaN` column is itself `NaN`. -/
structure SummaryStats where
  total_books : ℕ
  avg_price : Option ℚ
  min_price : Option ℚ
  max_price : Option ℚ
  avg_rating : Option ℚ
deriving DecidableEq

/-- `Series.min` over a column. -/
def listMin : List ℚ → Option ℚ
  | [] => none
  | q :: qs => some (qs.foldl min q)

/-- `Series.max` over a column. -/
def listMax : List ℚ → Option ℚ
  | [] => none
  | q :: qs => some (qs.foldl max q)

/-- `BookDataAnalyzer.get_summary_stats` (lines 131-146): an empty dataframe
yields `{"total_books": 0}` and nothing else; otherwise count, mean/min/max
of `price_numeric` and mean of `rating_numeric`.  `Series.mean` skips `NaN`
cells and is itself `NaN` (`none`) when every cell is `NaN`. -/
def get_summary_stats (df : List ProcessedBook) : SummaryStats :=
  if df = [] then ⟨0, none, none, none, none⟩
  else
    let prices := df.map (fun b => b.price_numeric)
    let ratings := df.filterMap (fun b => b.rating_numeric)
    ⟨df.length,
     some (prices.sum / (df.length : ℚ)),
     listMin prices,
     listMax prices,
     if ratings = [] then none
     else some ((ratings.map (fun k : ℕ => (k : ℚ))).sum / (ratings.length : ℚ))⟩

/-! ## Database -/

/-- One row of the `books` table (lines 226-235): `id INTEGER PRIMARY KEY
AUTOINCREMENT`, then title, price, rating, availability, url. -/
structure DBRow where
  id : ℕ
  title : String
  price : ℚ
  rating : ℕ
  availability : String
  url : String
deriving DecidableEq

/-- The `books` table plus SQLite's AUTOINCREMENT counter (next key to hand
out; AUTOINCREMENT never reuses a value even after deletes). -/
structure BookDB where
  rows : List DBRow
  nextId : ℕ
deriving DecidableEq

/-- A freshly created database: `BookDatabase.__init__` removes any existing
file and `_create_tables` starts the table empty; AUTOINCREMENT keys start
at 1. -/
def emptyDB : BookDB := ⟨[], 1⟩

/-- One iteration of the loop in `insert_books` (lines 253-268).
`existing_titles` is the snapshot taken once before the loop (lines 246-250)
and never updated inside it.  A row whose title is in the snapshot is
skipped.  A row with a `NaN` `rating_numeric` reaches the `INSERT`, where
SQLite stores `NaN` as `NULL` and the `rating INTEGER NOT NULL` constraint
raises; the per-row `except` catches it, so the row is dropped and
`insert_count` is not incremented. -/
def insertStep (existing_titles : List String) (acc : BookDB × ℕ)
    (row : ProcessedBook) : BookDB × ℕ :=
  if row.title ∈ existing_titles then acc
  else
    match row.rating_numeric with
    | none => acc
    | some k =>
      ({ rows := acc.1.rows ++
          [⟨acc.1.nextId, row.title, row.price_numeric, k,
            row.availability, row.url⟩],
         nextId := acc.1.nextId + 1 }, acc.2 + 1)

/-- `BookDatabase.insert_books` (lines 239-271): empty input returns with no
work; otherwise fold the per-row loop over the batch.  Returns the final
table state and `insert_count`. -/
def insert_books (db : BookDB) (books_df : List ProcessedBook) :
    BookDB × ℕ :=
  if books_df = [] then (db, 0)
  else books_df.foldl (insertStep (db.rows.map (fun r => r.title))) (db, 0)

/-- A sequence of `insert_books` calls against one store. -/
def runInserts (db : BookDB) (batches : List (List ProcessedBook)) : BookDB :=
  batches.foldl (fun d bs => (insert_books d bs).1) db

/-- Store invariant: ids strictly increase along insertion order and every
assigned id is below the AUTOINCREMENT counter. -/
def dbInv (db : BookDB) : Prop :=
  (db.rows.map (fun r => r.id)).Pairwise (· < ·) ∧
    ∀ r ∈ db.rows, r.id < db.nextId

instance (db : BookDB) : Decidable (dbInv db) := by
  unfold dbInv; infer_instance

/-! ## Crawler -/

/-- `BookScraper.scrape_books_from_page` (lines 40-74) with one page of the
site abstracted as `src page`: `none` when `fetch_webpage` returned `None`
(or the body was empty), `some l` for the listing rows parsed from the
page's `article.product_pod` blocks.  The method returns `False` — modelled
as the `Bool` component — when the fetch failed or the page had zero blocks,
and otherwise appends the page's rows and returns `True`. -/
def scrape_books_from_page (src : ℕ → Option (List RawBook)) (page : ℕ) :
    List RawBook × Bool :=
  match src page with
  | none => ([], false)
  | some [] => ([], false)
  | some (b :: bs) => (b :: bs, true)

/-- The loop of `scrape_multiple_pages` with `k` pages left to try, starting
at `page`: scrape, and stop (`break`) at the first page whose scrape
returned `False`, keeping everything accumulated so far. -/
def crawlGo (src : ℕ → Option (List RawBook)) (page : ℕ) : ℕ → List RawBook
  | 0 => []
  | k + 1 =>
    let r := scrape_books_from_page src page
    if r.2 then r.1 ++ crawlGo src (page + 1) k else []

/-- `BookScraper.scrape_multiple_pages` (lines 76-85): pages 1 to
`num_pages` in order, stopping early at the first failed/empty page, and
returning `self.books` — every listing accumulated before the stop. -/
def scrape_multiple_pages (src : ℕ → Option (List RawBook))
    (num_pages : ℕ) : List RawBook :=
  crawlGo src 1 num_pages

/-- Page `p` scrapes successfully with at least one listing. -/
def goodPage (src : ℕ → Option (List RawBook)) (p : ℕ) : Bool :=
  (scrape_books_from_page src p).2

/-- Length of the maximal run of good pages starting at `page`, capped at
`k`. -/
def goodRun (src : ℕ → Option (List RawBook)) (page : ℕ) : ℕ → ℕ
  | 0 => 0
  | k + 1 => if goodPage src page then goodRun src (page + 1) k + 1 else 0

/-- The listings of page `p` (empty when the fetch failed). -/
def pageBooks (src : ℕ → Option (List RawBook)) (p : ℕ) : List RawBook :=
  (src p).getD []

/-! ## Extractor: the per-block loop -/

/-- One `article.product_pod` block (lines 53-64): the link's optional
`title` attribute, the price element's text, the availability element's
text, the second class token of the rating element, and the link's href. -/
structure PageBlock where
  title_attr : Option String
  price_text : String
  availability_text : String
  rating_cls : String
  href : String
deriving DecidableEq

/-- `self.base_url` (line 19). -/
def base_url : String := "http://books.toscrape.com/"

/-- The loop body for one block with title `t` (lines 56-72): strip the
availability text, qualify the href with `'catalogue/'` when missing, and
join with the base url. -/
def blockListing (t : String) (b : PageBlock) : RawBook :=
  let bu := if hasSub "catalogue/".data b.href.data then b.href
            else "catalogue/" ++ b.href
  { title := t, price := b.price_text,
    availability := pyStrip b.availability_text, rating := b.rating_cls,
    url := base_url ++ bu }

/-- The extraction loop (lines 53-72).  `book.h3.a['title']` raises
`KeyError` when the link has no `title` attribute: the loop stops right
there — rows appended by earlier iterations stay in `self.books`, the bad
block and all later blocks are not processed, and the exception propagates
(the `Bool` component is `false`). -/
def extract_listings : List PageBlock → List RawBook × Bool
  | [] => ([], true)
  | b :: bs =>
    match b.title_attr with
    | none => ([], false)
    | some t =>
      let r := extract_listings bs
      (blockListing t b :: r.1, r.2)

/-! ## Fetcher -/

/-- Outcome of `requests.get` as seen by `fetch_webpage`: either a response
with a status code and a body, or a raised exception. -/
inductive TransportResult where
  | response (status_code : ℕ) (text : String)
  | raised (msg : String)
deriving DecidableEq

/-- `BookScraper.fetch_webpage` (lines 22-38): body on status 200, `None` on
any other status, `None` on any exception; nothing propagates. -/
def fetch_webpage : TransportResult → Option String
  | .response code txt => if code = 200 then some txt else none
  | .raised _ => none

/-! ## Concrete processed rows, blocks and sources for witnesses -/

/-- Canonical record A: rating 5, price 10. -/
def pbA : ProcessedBook := ⟨"A", "£10.00", "In stock", "Five", "ua", 10, some 5⟩

/-- Canonical record B: rating 4, price 8. -/
def pbB : ProcessedBook := ⟨"B", "£8.00", "In stock", "Four", "ub", 8, some 4⟩

/-- Canonical record C: rating 3, price 5. -/
def pbC : ProcessedBook := ⟨"C", "£5.00", "In stock", "Three", "uc", 5, some 3⟩

/-- Canonical record D: rating 4, price 8 — same price as B, later position. -/
def pbD : ProcessedBook := ⟨"D", "£8.00", "In stock", "Four", "ud", 8, some 4⟩

/-- Two canonical records sharing the title `"T"`. -/
def procT1 : ProcessedBook := ⟨"T", "£10.00", "In stock", "Five", "u1", 10, some 5⟩

/-- Second record with title `"T"` but different fields. -/
def procT2 : ProcessedBook := ⟨"T", "£8.00", "In stock", "Four", "u2", 8, some 4⟩

/-- A store already holding one row titled `"T"`. -/
def dbWithT : BookDB := ⟨[⟨1, "T", 10, 5, "In stock", "u1"⟩], 2⟩

/-- A page source with one listing on pages 1 and 2 and zero listings from
page 3 on. -/
def demoSrc : ℕ → Option (List RawBook) :=
  fun p => if p ≤ 2 then some [rawA] else some []

/-- A well-formed listing block. -/
def blkGood1 : PageBlock := ⟨some "A", "£10.00", " In stock ", "Five", "a.html"⟩

/-- A listing block whose link has no `title` attribute. -/
def blkBad : PageBlock := ⟨none, "£8.00", "In stock", "Four", "b.html"⟩

/-- Another well-formed listing block, after the bad one. -/
def blkGood2 : PageBlock := ⟨some "C", "£5.00", "In stock", "Three", "c.html"⟩

/-! ## Theorems -/

/-- C4: the raw price string "£51.77" normalizes to the number 51.77, and
the mis-encoded "Â£51.77" normalizes to the identical number — stripping
removes both the mangled prefix and the bare currency glyph before the
float parse. -/
theorem c4_currency_stripping :
    price_numeric_of "£51.77" = some ((5177 : ℚ) / 100) ∧
    price_numeric_of "Â£51.77" = some ((5177 : ℚ) / 100) := by
  constructor
  · have h : price_numeric_of "£51.77" = some (mkRat 5177 100) := by decide
    rw [h, Rat.mkRat_eq_div]
    norm_num
  · have h : price_numeric_of "Â£51.77" = some (mkRat 5177 100) := by decide
    rw [h, Rat.mkRat_eq_div]
    norm_num

/-- C10: `fetch_webpage` returns the response body exactly when the
transport reports status 200; every other status and every raised exception
yields `None`, and nothing propagates (the function is total into
`Option`). -/
theorem c10_fetch_webpage_total (t : TransportResult) (body : String) :
    fetch_webpage t = some body ↔ t = TransportResult.response 200 body := by
  cases t with
  | response code txt =>
    by_cases h : code = 200
    · subst h
      simp [fetch_webpage]
    · simp [fetch_webpage, h]
  | raised m => simp [fetch_webpage]

/-- C2 fails on the code: in a batch of N = 2 raw listings where exactly one
carries the unrecognized rating token "Zero", `_preprocess_data` keeps both
rows — the bad listing is retained with a null (`NaN`) `rating_numeric`, so
normalization yields N records, not N − 1. -/
theorem c2_counterexample :
    preprocess_data [rawA, rawBadRating] =
      some [⟨"A", "£10.00", "In stock", "Five", "u1", 10, some 5⟩,
            ⟨"B", "£8.00", "In stock", "Zero", "u2", 8, none⟩] ∧
    (preprocess_data [rawA, rawBadRating]).map List.length = some 2 := by
  constructor
  · decide
  · decide

/-- C2 (amended): over a batch whose prices all parse, normalization keeps
every listing and raises nothing: the output has all N rows, each row's
`rating_numeric` is the `rating_map` image of its token — an integer 1–5
for the five ordinal words and null (`none`) for an unrecognized token. -/
theorem c2_amended_bad_rating_kept_with_null (rows : List RawBook)
    (h : ∀ r ∈ rows, (price_numeric_of r.price).isSome) :
    (preprocess_data rows).map List.length = some rows.length ∧
    (preprocess_data rows).map (List.map (fun b => b.rating_numeric)) =
      some (rows.map (fun r => rating_map r.rating)) := by
  induction rows with
  | nil => exact ⟨rfl, rfl⟩
  | cons r rs ih =>
    obtain ⟨p, hp⟩ := Option.isSome_iff_exists.mp (h r (List.mem_cons_self r rs))
    obtain ⟨ih1, ih2⟩ := ih (fun x hx => h x (List.mem_cons_of_mem r hx))
    cases hrec : preprocess_data rs with
    | none =>
      rw [hrec] at ih1
      exact absurd ih1 (by simp)
    | some out =>
      rw [hrec] at ih1 ih2
      have h1 : out.length = rs.length := by simpa using ih1
      have h2 : out.map (fun b => b.rating_numeric) =
          rs.map (fun x => rating_map x.rating) := by simpa using ih2
      have hcons : preprocess_data (r :: rs) =
          some ((⟨r.title, r.price, r.availability, r.rating, r.url, p,
            rating_map r.rating⟩ : ProcessedBook) :: out) := by
        simp [preprocess_data, hp, hrec]
      rw [hcons]
      constructor
      · simp [h1]
      · simp [h2]

/-- C2 amended, witnessed at the concrete two-row batch: both rows survive
and the unrecognized token maps to null. -/
theorem c2_amended_witness :
    (preprocess_data [rawA, rawBadRating]).map List.length =
      some [rawA, rawBadRating].length ∧
    (preprocess_data [rawA, rawBadRating]).map
        (List.map (fun b => b.rating_numeric)) =
      some ([rawA, rawBadRating].map (fun r => rating_map r.rating)) :=
  c2_amended_bad_rating_kept_with_null [rawA, rawBadRating] (by decide)

/-- C3 fails on the code: a batch holding the well-formed listing `rawA`
and a listing whose price string does not parse is aborted wholesale —
`astype(float)` raises, so not even `rawA` gets normalized, instead of the
bad listing being rejected individually. -/
theorem c3_counterexample :
    price_numeric_of rawA.price = some 10 ∧
    price_numeric_of rawBadPrice.price = none ∧
    preprocess_data [rawA, rawBadPrice] = none := by
  refine ⟨?_, ?_, ?_⟩ <;> decide

/-- C3 (amended): one unparseable price aborts normalization of the entire
batch — whenever any listing's price fails to parse, `_preprocess_data`
raises and no listing of the batch is normalized. -/
theorem c3_amended_bad_price_aborts_batch (rows : List RawBook)
    (h : ∃ r ∈ rows, price_numeric_of r.price = none) :
    preprocess_data rows = none := by
  induction rows with
  | nil => simp at h
  | cons r rs ih =>
    obtain ⟨x, hx, hbad⟩ := h
    rcases List.mem_cons.mp hx with hhead | htail
    · subst hhead
      simp [preprocess_data, hbad]
    · have : preprocess_data rs = none := ih ⟨x, htail, hbad⟩
      simp [preprocess_data, this]
      cases price_numeric_of r.price <;> simp

/-- C3 amended, witnessed at the concrete two-row batch with one bad
price. -/
theorem c3_amended_witness : preprocess_data [rawA, rawBadPrice] = none :=
  c3_amended_bad_price_aborts_batch [rawA, rawBadPrice] (by decide)

/-- Folding a function that fixes every element of the list is the
identity. -/
theorem foldl_fixed {β α : Type} (f : β → α → β) (l : List α) (init : β)
    (h : ∀ a ∈ l, ∀ acc, f acc a = acc) : l.foldl f init = init := by
  induction l generalizing init with
  | nil => rfl
  | cons a as ih =>
    rw [List.foldl_cons, h a (List.mem_cons_self a as) init]
    exact ih init (fun x hx acc => h x (List.mem_cons_of_mem a hx) acc)

/-- One insert-loop iteration never removes a title from the table. -/
theorem insertStep_title_mem (ex : List String) (acc : BookDB × ℕ)
    (row : ProcessedBook) (t : String)
    (h : t ∈ acc.1.rows.map (fun r => r.title)) :
    t ∈ (insertStep ex acc row).1.rows.map (fun r => r.title) := by
  unfold insertStep
  split
  · exact h
  · split
    · exact h
    · simp only [List.map_append, List.mem_append]
      exact Or.inl h

/-- The insert loop never removes a title from the table. -/
theorem foldl_insertStep_title_mem (ex : List String)
    (books : List ProcessedBook) (acc : BookDB × ℕ) (t : String)
    (h : t ∈ acc.1.rows.map (fun r => r.title)) :
    t ∈ ((books.foldl (insertStep ex) acc).1.rows.map (fun r => r.title)) := by
  induction books generalizing acc with
  | nil => exact h
  | cons b bs ih =>
    rw [List.foldl_cons]
    exact ih _ (insertStep_title_mem ex acc b t h)

/-- After one insert loop, a batch row with a non-null rating either had its
title in the snapshot or now has it in the table. -/
theorem foldl_insertStep_covers (ex : List String)
    (books : List ProcessedBook) :
    ∀ (acc : BookDB × ℕ) (b : ProcessedBook), b ∈ books →
      b.rating_numeric.isSome →
      b.title ∈ ex ∨
        b.title ∈ ((books.foldl (insertStep ex) acc).1.rows.map
          (fun r => r.title)) := by
  induction books with
  | nil =>
    intro acc b hb
    cases hb
  | cons x xs ih =>
    intro acc b hb hr
    rw [List.foldl_cons]
    rcases List.mem_cons.mp hb with hhead | htail
    · subst hhead
      by_cases hex : b.title ∈ ex
      · exact Or.inl hex
      · obtain ⟨k, hk⟩ := Option.isSome_iff_exists.mp hr
        right
        apply foldl_insertStep_title_mem
        unfold insertStep
        rw [if_neg hex, hk]
        simp
    · exact ih _ b htail hr

/-- A call whose per-row step fixes every accumulator does nothing. -/
theorem insert_books_fixed (db : BookDB) (books : List ProcessedBook)
    (h : ∀ b ∈ books, ∀ acc,
      insertStep (db.rows.map (fun r => r.title)) acc b = acc) :
    insert_books db books = (db, 0) := by
  unfold insert_books
  split
  · rfl
  · exact foldl_fixed _ books (db, 0) h

/-- C5 fails on the code: two distinct records sharing the title "T",
inserted into an empty store in ONE call, are both inserted —
`existing_titles` is snapshotted before the loop (lines 246-250) and never
updated inside it, so a title inserted earlier in the same call is not
skipped. -/
theorem c5_counterexample :
    (insert_books emptyDB [procT1, procT2]).1.rows.map (fun r => r.title) =
      ["T", "T"] ∧
    (insert_books emptyDB [procT1, procT2]).2 = 2 := by
  constructor
  · decide
  · decide

/-- C5 (amended): deduplication is only against rows present when the call
starts — a call all of whose titles are already in the store inserts
nothing and leaves it unchanged, and a second `insert_books` call with the
same input set inserts 0 new rows; duplicate titles within a single batch
are however not deduplicated against each other. -/
theorem c5_amended_insert_books (db : BookDB) (books : List ProcessedBook) :
    ((∀ b ∈ books, b.title ∈ db.rows.map (fun r => r.title)) →
      insert_books db books = (db, 0)) ∧
    insert_books (insert_books db books).1 books =
      ((insert_books db books).1, 0) := by
  constructor
  · intro h
    apply insert_books_fixed
    intro b hb acc
    unfold insertStep
    rw [if_pos (h b hb)]
  · by_cases hemp : books = []
    · subst hemp
      simp [insert_books]
    · have hdb1 : (insert_books db books).1 =
          (books.foldl (insertStep (db.rows.map (fun r => r.title)))
            (db, 0)).1 := by
        unfold insert_books
        rw [if_neg hemp]
      apply insert_books_fixed
      intro b hb acc
      cases hk : b.rating_numeric with
      | none =>
        unfold insertStep
        rw [hk]
        split
        · rfl
        · rfl
      | some k =>
        have hmem : b.title ∈
            ((books.foldl (insertStep (db.rows.map (fun r => r.title)))
              (db, 0)).1.rows.map (fun r => r.title)) := by
          rcases foldl_insertStep_covers (db.rows.map (fun r => r.title))
              books (db, 0) b hb (by simp [hk]) with hex | hin
          · exact foldl_insertStep_title_mem _ books (db, 0) b.title hex
          · exact hin
        have hmem2 : b.title ∈
            ((insert_books db books).1.rows.map (fun r => r.title)) := by
          rw [hdb1]
          exact hmem
        unfold insertStep
        rw [if_pos hmem2]

/-- C5 amended, witnessed: a call whose only title is already stored is a
no-op, and the duplicated concrete batch inserted twice adds nothing the
second time. -/
theorem c5_amended_witness :
    insert_books dbWithT [procT1] = (dbWithT, 0) ∧
    insert_books (insert_books emptyDB [procT1, procT2]).1
        [procT1, procT2] =
      ((insert_books emptyDB [procT1, procT2]).1, 0) :=
  ⟨(c5_amended_insert_books dbWithT [procT1]).1 (by decide),
   (c5_amended_insert_books emptyDB [procT1, procT2]).2⟩

/-- One insert-loop iteration preserves the id invariant and only appends
rows. -/
theorem insertStep_inv (ex : List String) (acc : BookDB × ℕ)
    (row : ProcessedBook) (h : dbInv acc.1) :
    dbInv (insertStep ex acc row).1 ∧
      ∃ ext, (insertStep ex acc row).1.rows = acc.1.rows ++ ext := by
  unfold insertStep
  by_cases hex : row.title ∈ ex
  · rw [if_pos hex]
    exact ⟨h, [], by simp⟩
  · rw [if_neg hex]
    cases hk : row.rating_numeric with
    | none => exact ⟨h, [], by simp⟩
    | some k =>
      refine ⟨⟨?_, ?_⟩, ?_⟩
      · simp only [List.map_append, List.map_cons, List.map_nil]
        rw [List.pairwise_append]
        refine ⟨h.1, by simp, ?_⟩
        intro a ha b hb
        simp only [List.mem_singleton] at hb
        subst hb
        obtain ⟨r, hr, rfl⟩ := List.mem_map.mp ha
        exact h.2 r hr
      · intro r hr
        rcases List.mem_append.mp hr with h1 | h2
        · exact Nat.lt_succ_of_lt (h.2 r h1)
        · simp only [List.mem_singleton] at h2
          subst h2
          exact Nat.lt_succ_self _
      · exact ⟨_, rfl⟩

/-- The insert loop preserves the id invariant and only appends rows. -/
theorem foldl_insertStep_inv (ex : List String)
    (books : List ProcessedBook) :
    ∀ acc : BookDB × ℕ, dbInv acc.1 →
      dbInv ((books.foldl (insertStep ex) acc).1) ∧
        ∃ ext, ((books.foldl (insertStep ex) acc).1).rows =
          acc.1.rows ++ ext := by
  induction books with
  | nil => exact fun acc h => ⟨h, [], by simp⟩
  | cons b bs ih =>
    intro acc h
    rw [List.foldl_cons]
    obtain ⟨h1, ext1, he1⟩ := insertStep_inv ex acc b h
    obtain ⟨h2, ext2, he2⟩ := ih (insertStep ex acc b) h1
    exact ⟨h2, ext1 ++ ext2, by rw [he2, he1, List.append_assoc]⟩

/-- One `insert_books` call preserves the id invariant and only appends
rows. -/
theorem insert_books_inv (db : BookDB) (books : List ProcessedBook)
    (h : dbInv db) :
    dbInv (insert_books db books).1 ∧
      ∃ ext, (insert_books db books).1.rows = db.rows ++ ext := by
  unfold insert_books
  split
  · exact ⟨h, [], by simp⟩
  · exact foldl_insertStep_inv _ books (db, 0) h

/-- C6: across every sequence of insert calls on one store whose id
invariant holds (as it does for a fresh store), the assigned ids are
strictly increasing in insertion order and stay below the AUTOINCREMENT
counter, so a fresh id never repeats an assigned one; and the table only
grows by appending, so a row once inserted keeps its id and contents — an
id is never reassigned to a different record. -/
theorem c6_ids_strictly_increasing (db : BookDB)
    (batches : List (List ProcessedBook)) (h : dbInv db) :
    dbInv (runInserts db batches) ∧
      ∃ ext, (runInserts db batches).rows = db.rows ++ ext := by
  induction batches generalizing db with
  | nil => exact ⟨h, [], by simp [runInserts]⟩
  | cons bs rest ih =>
    obtain ⟨h1, ext1, he1⟩ := insert_books_inv db bs h
    obtain ⟨h2, ext2, he2⟩ := ih (insert_books db bs).1 h1
    refine ⟨by simpa [runInserts, List.foldl_cons] using h2,
      ext1 ++ ext2, ?_⟩
    simp only [runInserts, List.foldl_cons] at he2 ⊢
    rw [he2, he1, List.append_assoc]

/-- C6 witnessed on a fresh store and two concrete insert calls. -/
theorem c6_witness :
    dbInv (runInserts emptyDB [[procT1], [pbB]]) ∧
      ∃ ext, (runInserts emptyDB [[procT1], [pbB]]).rows =
        emptyDB.rows ++ ext :=
  c6_ids_strictly_increasing emptyDB [[procT1], [pbB]] (by decide)

/-- The crawl loop starting at any page returns exactly the concatenated
listings of the maximal run of good pages from there. -/
theorem crawlGo_eq_flatMap (src : ℕ → Option (List RawBook)) :
    ∀ k page : ℕ, crawlGo src page k =
      (List.range' page (goodRun src page k)).flatMap (pageBooks src) := by
  intro k
  induction k with
  | zero => intro page; rfl
  | succ k ih =>
    intro page
    cases hsrc : src page with
    | none =>
      have hs : scrape_books_from_page src page = ([], false) := by
        simp [scrape_books_from_page, hsrc]
      have hg : goodPage src page = false := by simp [goodPage, hs]
      simp [crawlGo, hs, goodRun, hg]
    | some l =>
      cases l with
      | nil =>
        have hs : scrape_books_from_page src page = ([], false) := by
          simp [scrape_books_from_page, hsrc]
        have hg : goodPage src page = false := by simp [goodPage, hs]
        simp [crawlGo, hs, goodRun, hg]
      | cons b bs =>
        have hs : scrape_books_from_page src page = (b :: bs, true) := by
          simp [scrape_books_from_page, hsrc]
        have hg : goodPage src page = true := by simp [goodPage, hs]
        have hpb : pageBooks src page = b :: bs := by simp [pageBooks, hsrc]
        have hrun : goodRun src page (k + 1) =
            goodRun src (page + 1) k + 1 := by simp [goodRun, hg]
        rw [hrun, List.range'_succ, List.flatMap_cons, hpb, ← ih (page + 1)]
        simp [crawlGo, hs]

/-- The good run never exceeds the page budget. -/
theorem goodRun_le (src : ℕ → Option (List RawBook)) :
    ∀ k page : ℕ, goodRun src page k ≤ k := by
  intro k
  induction k with
  | zero => intro page; exact Nat.le_refl 0
  | succ k ih =>
    intro page
    by_cases hg : goodPage src page = true
    · simp only [goodRun, if_pos hg]
      exact Nat.succ_le_succ (ih (page + 1))
    · simp only [goodRun, if_neg hg]
      exact Nat.zero_le _

/-- The good run either uses the whole budget or stops at a bad page. -/
theorem goodRun_stop (src : ℕ → Option (List RawBook)) :
    ∀ k page : ℕ, goodRun src page k = k ∨
      goodPage src (page + goodRun src page k) = false := by
  intro k
  induction k with
  | zero => intro page; exact Or.inl rfl
  | succ k ih =>
    intro page
    by_cases hg : goodPage src page = true
    · have hrun : goodRun src page (k + 1) =
          goodRun src (page + 1) k + 1 := by simp [goodRun, hg]
      rcases ih (page + 1) with h | h
      · exact Or.inl (by rw [hrun, h])
      · right
        rw [hrun]
        have harith : page + (goodRun src (page + 1) k + 1) =
            page + 1 + goodRun src (page + 1) k := by omega
        rw [harith]
        exact h
    · have hrun : goodRun src page (k + 1) = 0 := by simp [goodRun, hg]
      right
      rw [hrun, Nat.add_zero]
      exact Bool.not_eq_true _ |>.mp hg

/-- Every page inside the good run scrapes successfully and non-empty. -/
theorem goodRun_good (src : ℕ → Option (List RawBook)) :
    ∀ k page p : ℕ, p ∈ List.range' page (goodRun src page k) →
      goodPage src p = true := by
  intro k
  induction k with
  | zero =>
    intro page p hp
    simp [goodRun] at hp
  | succ k ih =>
    intro page p hp
    by_cases hg : goodPage src page = true
    · rw [show goodRun src page (k + 1) = goodRun src (page + 1) k + 1 from
        by simp [goodRun, hg], List.range'_succ] at hp
      rcases List.mem_cons.mp hp with h | h
      · rw [h]; exact hg
      · exact ih (page + 1) p h
    · rw [show goodRun src page (k + 1) = 0 from by simp [goodRun, hg]] at hp
      simp at hp

/-- C7: the crawl visits pages 1, 2, … in order and stops at the first page
that fetch-fails or yields zero listings, or after the page limit `N`;
its output is exactly the concatenated listings of the pages before that
stopping point — in particular a fetch failure or an empty page yields the
partial results accumulated so far, not an error. -/
theorem c7_pagination_termination (src : ℕ → Option (List RawBook))
    (N : ℕ) :
    scrape_multiple_pages src N =
      (List.range' 1 (goodRun src 1 N)).flatMap (pageBooks src) ∧
    goodRun src 1 N ≤ N ∧
    (goodRun src 1 N = N ∨ goodPage src (1 + goodRun src 1 N) = false) ∧
    ∀ p ∈ List.range' 1 (goodRun src 1 N), goodPage src p = true :=
  ⟨crawlGo_eq_flatMap src N 1, goodRun_le src N 1, goodRun_stop src N 1,
   fun p hp => goodRun_good src N 1 p hp⟩

/-- C7 witnessed on the concrete source with listings on pages 1–2 and an
empty page 3: the crawl over a 5-page budget returns exactly the two pages'
listings, and page 1 is good. -/
theorem c7_witness :
    scrape_multiple_pages demoSrc 5 = [rawA, rawA] ∧
    goodPage demoSrc 1 = true :=
  ⟨((c7_pagination_termination demoSrc 5).1).trans (by decide),
   (c7_pagination_termination demoSrc 5).2.2.2 1 (by decide)⟩

/-- Left fold of `min` lands on a member of the list and bounds every
member from below. -/
theorem foldl_min_mem (qs : List ℚ) :
    ∀ q : ℚ, qs.foldl min q ∈ q :: qs ∧
      ∀ x ∈ q :: qs, qs.foldl min q ≤ x := by
  induction qs with
  | nil =>
    intro q
    refine ⟨List.mem_cons_self q [], ?_⟩
    intro x hx
    rw [List.mem_singleton] at hx
    subst hx
    exact le_refl x
  | cons r rs ih =>
    intro q
    obtain ⟨hm, hb⟩ := ih (min q r)
    rw [List.foldl_cons]
    constructor
    · rcases List.mem_cons.mp hm with h1 | h2
      · rcases min_choice q r with hc | hc
        · rw [h1, hc]; exact List.mem_cons_self _ _
        · rw [h1, hc]
          exact List.mem_cons_of_mem _ (List.mem_cons_self _ _)
      · exact List.mem_cons_of_mem _ (List.mem_cons_of_mem _ h2)
    · intro x hx
      rcases List.mem_cons.mp hx with h1 | hx2
      · rw [h1]
        exact le_trans (hb _ (List.mem_cons_self _ _)) (min_le_left q r)
      · rcases List.mem_cons.mp hx2 with h2 | h3
        · rw [h2]
          exact le_trans (hb _ (List.mem_cons_self _ _)) (min_le_right q r)
        · exact hb x (List.mem_cons_of_mem _ h3)

/-- Left fold of `max` lands on a member of the list and bounds every
member from above. -/
theorem foldl_max_mem (qs : List ℚ) :
    ∀ q : ℚ, qs.foldl max q ∈ q :: qs ∧
      ∀ x ∈ q :: qs, x ≤ qs.foldl max q := by
  induction qs with
  | nil =>
    intro q
    refine ⟨List.mem_cons_self q [], ?_⟩
    intro x hx
    rw [List.mem_singleton] at hx
    subst hx
    exact le_refl x
  | cons r rs ih =>
    intro q
    obtain ⟨hm, hb⟩ := ih (max q r)
    rw [List.foldl_cons]
    constructor
    · rcases List.mem_cons.mp hm with h1 | h2
      · rcases max_choice q r with hc | hc
        · rw [h1, hc]; exact List.mem_cons_self _ _
        · rw [h1, hc]
          exact List.mem_cons_of_mem _ (List.mem_cons_self _ _)
      · exact List.mem_cons_of_mem _ (List.mem_cons_of_mem _ h2)
    · intro x hx
      rcases List.mem_cons.mp hx with h1 | hx2
      · rw [h1]
        exact le_trans (le_max_left q r) (hb _ (List.mem_cons_self _ _))
      · rcases List.mem_cons.mp hx2 with h2 | h3
        · rw [h2]
          exact le_trans (le_max_right q r) (hb _ (List.mem_cons_self _ _))
        · exact hb x (List.mem_cons_of_mem _ h3)

/-- C8: over an empty collection `get_summary_stats` returns a dict holding
only the count 0 — no numeric field is computed — and does not raise; over
a non-empty collection it returns the count, the mean price, the minimum
and maximum price (an attained lower/upper bound of the price column), and
— when the ratings are non-null, as in canonical records — the mean
rating. -/
theorem c8_summary_empty_safe (df : List ProcessedBook) :
    get_summary_stats [] = ⟨0, none, none, none, none⟩ ∧
    (df ≠ [] →
      (get_summary_stats df).total_books = df.length ∧
      (get_summary_stats df).avg_price =
        some ((df.map (fun b => b.price_numeric)).sum / (df.length : ℚ)) ∧
      (∃ m, (get_summary_stats df).min_price = some m ∧
        m ∈ df.map (fun b => b.price_numeric) ∧
        ∀ p ∈ df.map (fun b => b.price_numeric), m ≤ p) ∧
      (∃ M, (get_summary_stats df).max_price = some M ∧
        M ∈ df.map (fun b => b.price_numeric) ∧
        ∀ p ∈ df.map (fun b => b.price_numeric), p ≤ M) ∧
      ((∀ b ∈ df, b.rating_numeric.isSome) →
        (get_summary_stats df).avg_rating =
          some (((df.filterMap (fun b => b.rating_numeric)).map
              (fun k : ℕ => (k : ℚ))).sum /
            ((df.filterMap (fun b => b.rating_numeric)).length : ℚ)))) := by
  constructor
  · rfl
  · intro hne
    cases df with
    | nil => exact absurd rfl hne
    | cons b bs =>
      refine ⟨?_, ?_, ?_, ?_, ?_⟩
      · simp [get_summary_stats]
      · simp [get_summary_stats]
      · obtain ⟨hm, hb⟩ :=
          foldl_min_mem (bs.map (fun x => x.price_numeric)) b.price_numeric
        refine ⟨(bs.map (fun x => x.price_numeric)).foldl min b.price_numeric,
          ?_, ?_, ?_⟩
        · simp [get_summary_stats, listMin]
        · simpa [List.map_cons] using hm
        · intro p hp
          exact hb p (by simpa [List.map_cons] using hp)
      · obtain ⟨hm, hb⟩ :=
          foldl_max_mem (bs.map (fun x => x.price_numeric)) b.price_numeric
        refine ⟨(bs.map (fun x => x.price_numeric)).foldl max b.price_numeric,
          ?_, ?_, ?_⟩
        · simp [get_summary_stats, listMax]
        · simpa [List.map_cons] using hm
        · intro p hp
          exact hb p (by simpa [List.map_cons] using hp)
      · intro hall
        obtain ⟨k, hk⟩ := Option.isSome_iff_exists.mp
          (hall b (List.mem_cons_self b bs))
        have hne2 : (b :: bs).filterMap (fun x => x.rating_numeric) ≠ [] := by
          simp [List.filterMap_cons, hk]
        simp only [get_summary_stats, if_neg (List.cons_ne_nil b bs)]
        rw [if_neg hne2]

/-- C8 witnessed at the empty collection and at a one-record collection. -/
theorem c8_witness :
    get_summary_stats [] = ⟨0, none, none, none, none⟩ ∧
    (get_summary_stats [pbA]).total_books = [pbA].length ∧
    (get_summary_stats [pbA]).avg_rating =
      some ((([pbA].filterMap (fun b => b.rating_numeric)).map
          (fun k : ℕ => (k : ℚ))).sum /
        (([pbA].filterMap (fun b => b.rating_numeric)).length : ℚ)) :=
  ⟨(c8_summary_empty_safe []).1,
   ((c8_summary_empty_safe [pbA]).2 (by decide)).1,
   ((c8_summary_empty_safe [pbA]).2 (by decide)).2.2.2.2 (by decide)⟩

/-- C9 fails on the code: on a page of three blocks whose middle block's
link lacks the `title` attribute, only the first block's listing is
produced — `book.h3.a['title']` raises `KeyError`, the loop stops, the
well-formed third block is never extracted, and the failure propagates
instead of only that listing being skipped. -/
theorem c9_counterexample :
    extract_listings [blkGood1, blkBad, blkGood2] =
      ([⟨"A", "£10.00", "In stock", "Five",
        "http://books.toscrape.com/catalogue/a.html"⟩], false) ∧
    (extract_listings [blkGood1, blkBad, blkGood2]).1.length = 1 := by
  constructor
  · decide
  · decide

/-- C9 (amended): a listing block without a `title` attribute aborts the
page's extraction at that block — the listings of the preceding
well-formed blocks are kept (their appends already happened), the bad
block and every later block yield nothing, and the error propagates. -/
theorem c9_missing_title_aborts_page (pre post : List PageBlock)
    (b : PageBlock) (hb : b.title_attr = none)
    (hpre : ∀ x ∈ pre, x.title_attr.isSome) :
    extract_listings (pre ++ b :: post) =
      ((extract_listings pre).1, false) := by
  induction pre with
  | nil =>
    simp only [List.nil_append]
    simp [extract_listings, hb]
  | cons x xs ih =>
    obtain ⟨t, ht⟩ := Option.isSome_iff_exists.mp
      (hpre x (List.mem_cons_self x xs))
    have ihx := ih (fun y hy => hpre y (List.mem_cons_of_mem x hy))
    simp only [List.cons_append]
    simp [extract_listings, ht, ihx]

/-- C9 amended, witnessed on the concrete three-block page. -/
theorem c9_amended_witness :
    extract_listings ([blkGood1] ++ blkBad :: [blkGood2]) =
      ((extract_listings [blkGood1]).1, false) :=
  c9_missing_title_aborts_page [blkGood1] [blkGood2] blkBad rfl (by decide)

/-- Membership through insertion. -/
theorem mem_insLe (le : α → α → Bool) (a x : α) :
    ∀ L : List α, x ∈ insLe le a L ↔ x = a ∨ x ∈ L := by
  intro L
  induction L with
  | nil => simp [insLe]
  | cons b bs ih =>
    by_cases h : le a b = true
    · simp only [insLe, if_pos h, List.mem_cons]
    · simp only [insLe, if_neg h, List.mem_cons, ih]
      tauto

/-- Membership through sorting. -/
theorem mem_sortLe (le : α → α → Bool) (x : α) :
    ∀ L : List α, x ∈ sortLe le L ↔ x ∈ L := by
  intro L
  induction L with
  | nil => exact Iff.rfl
  | cons a as ih =>
    simp only [sortLe, mem_insLe, List.mem_cons, ih]

/-- Insertion adds one element to the length. -/
theorem length_insLe (le : α → α → Bool) (a : α) :
    ∀ L : List α, (insLe le a L).length = L.length + 1 := by
  intro L
  induction L with
  | nil => rfl
  | cons b bs ih =>
    by_cases h : le a b = true
    · simp [insLe, h]
    · simp [insLe, h, ih]

/-- Sorting preserves the length. -/
theorem length_sortLe (le : α → α → Bool) :
    ∀ L : List α, (sortLe le L).length = L.length := by
  intro L
  induction L with
  | nil => rfl
  | cons a as ih =>
    simp only [sortLe, length_insLe, ih, List.length_cons]

/-- On a pair whose position is not later, the lexicographic comparison
coincides with the bare price comparison. -/
theorem lexLe_eq_priceLe (i j : ℕ) (b c : ProcessedBook) (h : i ≤ j) :
    lexLe (i, b) (j, c) = priceLe b c := by
  unfold lexLe priceLe
  by_cases hlt : b.price_numeric < c.price_numeric
  · simp [hlt, le_of_lt hlt]
  · by_cases heq : b.price_numeric = c.price_numeric
    · simp [hlt, heq, h, le_refl]
    · have hnle : ¬ b.price_numeric ≤ c.price_numeric := by
        rw [le_iff_lt_or_eq]
        tauto
      simp [hlt, heq, hnle]

/-- Inserting a pair whose position precedes every position in the list is,
on second components, the bare price insertion. -/
theorem map_snd_insLe (i : ℕ) (b : ProcessedBook) :
    ∀ L : List (ℕ × ProcessedBook), (∀ q ∈ L, i ≤ q.1) →
      (insLe lexLe (i, b) L).map Prod.snd =
        insLe priceLe b (L.map Prod.snd) := by
  intro L
  induction L with
  | nil => intro _; rfl
  | cons p ps ih =>
    intro h
    obtain ⟨j, c⟩ := p
    have hij : i ≤ j := h (j, c) (List.mem_cons_self _ _)
    have hstep : insLe lexLe (i, b) ((j, c) :: ps) =
        if lexLe (i, b) (j, c) then (i, b) :: (j, c) :: ps
        else (j, c) :: insLe lexLe (i, b) ps := rfl
    rw [hstep, lexLe_eq_priceLe i j b c hij]
    by_cases hle : priceLe b c = true
    · simp [insLe, hle]
    · simp only [if_neg hle, List.map_cons, insLe, Bool.false_eq_true,
        ite_false]
      rw [ih (fun q hq => h q (List.mem_cons_of_mem _ hq))]

/-- Sorting pairs with strictly increasing positions by the lexicographic
key is, on second components, the stable sort by price. -/
theorem map_snd_sortLe :
    ∀ L : List (ℕ × ProcessedBook),
      L.Pairwise (fun p q => p.1 < q.1) →
      (sortLe lexLe L).map Prod.snd = sortLe priceLe (L.map Prod.snd) := by
  intro L
  induction L with
  | nil => intro _; rfl
  | cons p ps ih =>
    intro h
    obtain ⟨i, b⟩ := p
    rw [List.pairwise_cons] at h
    obtain ⟨hhead, htail⟩ := h
    have hmem : ∀ q ∈ sortLe lexLe ps, i ≤ q.1 := fun q hq =>
      le_of_lt (hhead q ((mem_sortLe lexLe q ps).mp hq))
    simp only [sortLe, List.map_cons]
    rw [map_snd_insLe i b (sortLe lexLe ps) hmem, ih htail]

/-- Positions handed out by `withIdx` start at the seed. -/
theorem mem_withIdx_fst : ∀ (l : List α) (k : ℕ) (q : ℕ × α),
    q ∈ withIdx k l → k ≤ q.1 := by
  intro l
  induction l with
  | nil =>
    intro k q hq
    cases hq
  | cons a as ih =>
    intro k q hq
    rcases List.mem_cons.mp hq with h | h
    · rw [h]
    · exact Nat.le_of_succ_le (ih (k + 1) q h)

/-- Positions handed out by `withIdx` are strictly increasing. -/
theorem pairwise_fst_withIdx : ∀ (l : List α) (k : ℕ),
    (withIdx k l).Pairwise (fun p q => p.1 < q.1) := by
  intro l
  induction l with
  | nil => intro k; exact List.Pairwise.nil
  | cons a as ih =>
    intro k
    rw [show withIdx k (a :: as) = (k, a) :: withIdx (k + 1) as from rfl,
      List.pairwise_cons]
    exact ⟨fun q hq => Nat.lt_of_succ_le (mem_withIdx_fst as (k + 1) q hq),
      ih (k + 1)⟩

/-- Filtering indexed pairs on the rating threshold of the payload and
dropping the indices is filtering the payloads. -/
theorem map_snd_filter_withIdx (min_rating : ℤ) :
    ∀ (l : List ProcessedBook) (k : ℕ),
      ((withIdx k l).filter
        (fun p => ratingGe p.2.rating_numeric min_rating)).map Prod.snd =
        l.filter (fun b => ratingGe b.rating_numeric min_rating) := by
  intro l
  induction l with
  | nil => intro k; rfl
  | cons a as ih =>
    intro k
    rw [show withIdx k (a :: as) = (k, a) :: withIdx (k + 1) as from rfl]
    by_cases h : ratingGe a.rating_numeric min_rating = true
    · simp [List.filter_cons, h, ih (k + 1)]
    · simp [List.filter_cons, h, ih (k + 1)]

/-- Price insertion preserves ascending order. -/
theorem pairwise_insLe_price (a : ProcessedBook) :
    ∀ L : List ProcessedBook,
      L.Pairwise (fun b c => b.price_numeric ≤ c.price_numeric) →
      (insLe priceLe a L).Pairwise
        (fun b c => b.price_numeric ≤ c.price_numeric) := by
  intro L
  induction L with
  | nil =>
    intro _
    simp [insLe]
  | cons b bs ih =>
    intro h
    rw [List.pairwise_cons] at h
    obtain ⟨hhead, htail⟩ := h
    by_cases hab : priceLe a b = true
    · have hab2 : a.price_numeric ≤ b.price_numeric := by
        simpa [priceLe] using hab
      rw [show insLe priceLe a (b :: bs) = a :: b :: bs from by
        simp [insLe, hab]]
      rw [List.pairwise_cons]
      constructor
      · intro c hc
        rcases List.mem_cons.mp hc with h1 | h2
        · rw [h1]
          exact hab2
        · exact le_trans hab2 (hhead c h2)
      · rw [List.pairwise_cons]
        exact ⟨hhead, htail⟩
    · have hba : b.price_numeric ≤ a.price_numeric := by
        have hnot : ¬ a.price_numeric ≤ b.price_numeric := by
          simpa [priceLe] using hab
        exact le_of_not_le hnot
      rw [show insLe priceLe a (b :: bs) = b :: insLe priceLe a bs from by
        simp [insLe, hab]]
      rw [List.pairwise_cons]
      constructor
      · intro c hc
        rcases (mem_insLe priceLe a c bs).mp hc with h1 | h2
        · rw [h1]
          exact hba
        · exact hhead c h2
      · exact ih htail

/-- The stable price sort produces an ascending-price list. -/
theorem pairwise_sortLe_price :
    ∀ L : List ProcessedBook, (sortLe priceLe L).Pairwise
      (fun b c => b.price_numeric ≤ c.price_numeric) := by
  intro L
  induction L with
  | nil => exact List.Pairwise.nil
  | cons a as ih => exact pairwise_insLe_price a _ ih

/-- Properties of the model of `get_best_value_book` in which the
unspecified tie order of `sort_values` is instantiated as the stable sort:
under that instantiation it coincides with `bestValueSpec` (sort by the
tie-free key (price, original position), take `n`); unconditionally on the
tie order, its length is `min n` (number of qualifying records) — so fewer
than `n` qualifying records are all returned and zero qualifying records
give the empty result — and the output is ascending in price.  The
coincidence with `bestValueSpec`, being sensitive to the tie order, holds
for the instantiation only and is not asserted of the code. -/
theorem best_value_model_refines_lex (df : List ProcessedBook)
    (min_rating : ℤ) (n : ℕ) :
    get_best_value_book df min_rating n = bestValueSpec df min_rating n ∧
    (get_best_value_book df min_rating n).length =
      min n (df.filter
        (fun b => ratingGe b.rating_numeric min_rating)).length ∧
    (get_best_value_book df min_rating n).Pairwise
      (fun b c => b.price_numeric ≤ c.price_numeric) := by
  have hkey : (sortLe lexLe ((withIdx 0 df).filter
        (fun p => ratingGe p.2.rating_numeric min_rating))).map Prod.snd =
      sortLe priceLe (df.filter
        (fun b => ratingGe b.rating_numeric min_rating)) := by
    rw [map_snd_sortLe _
      ((pairwise_fst_withIdx df 0).sublist (List.filter_sublist _)),
      map_snd_filter_withIdx min_rating df 0]
  refine ⟨?_, ?_, ?_⟩
  · unfold get_best_value_book bestValueSpec
    by_cases hdf : df = []
    · subst hdf
      simp [withIdx, sortLe]
    · rw [if_neg hdf, hkey]
  · unfold get_best_value_book
    by_cases hdf : df = []
    · subst hdf
      simp
    · rw [if_neg hdf, List.length_take, length_sortLe]
  · unfold get_best_value_book
    by_cases hdf : df = []
    · subst hdf
      simp
    · rw [if_neg hdf]
      exact (pairwise_sortLe_price _).sublist (List.take_sublist _ _)

/-- The spec scenario evaluated in the model: records A(rating 5, £10),
B(4, £8), C(3, £5), D(4, £8) with `min_rating = 4`, `n = 5` give [B, D, A]
— ascending price, all three because fewer than five qualify; the B/D
price tie lands in original order under the model's stable instantiation
of the sort. -/
theorem best_value_scenario :
    get_best_value_book [pbA, pbB, pbC, pbD] 4 5 = [pbB, pbD, pbA] := by
  decide
